import Mathlib

/-!
# Verification of the calloop event-loop sources (`src/sources/mod.rs`)

Shallow embedding of the repository's source/dispatcher layer together with a
spec-modelled polling backend, registry and dispatch cycle (the files
`sys.rs`, `list.rs` and `loop_logic.rs` are not part of the sources; only
`sources/mod.rs` and `lib.rs` are).  Machine state is passed explicitly;
fallible operations return `Except`.
-/

namespace Calloop

/-- The mio `Ready` value: which readiness conditions fired / are wanted. -/
structure Ready where
  readable : Bool
  writable : Bool
deriving DecidableEq, Repr

/-- The mio `PollOpt` value: triggering mode (edge vs level, oneshot). -/
structure PollOpt where
  edge : Bool
  oneshot : Bool
deriving DecidableEq, Repr

/-- One OS-level registration held by the polling backend:
a descriptor polled under a token with an interest and a mode. -/
structure Registration where
  desc : Nat
  token : Nat
  interest : Ready
  opts : PollOpt
deriving DecidableEq, Repr

/-- Errors of the polling backend operations. -/
inductive PollError where
  | notRegistered
  | alreadyRegistered
deriving DecidableEq, Repr

/-- Modelled from the spec: the Polling Backend (`sys.rs` is not in the
sources) owns the set of live OS registrations. -/
structure Poll where
  regs : List Registration
deriving DecidableEq, Repr

/-- Whether some registration for descriptor `d` is present. -/
def Poll.hasDesc (p : Poll) (d : Nat) : Bool :=
  p.regs.any (fun r => r.desc == d)

/-- Modelled from the spec: `register(descriptor, token, interest, mode) -> Result`;
an insertion failure (duplicate descriptor) is a distinguishable error. -/
def Poll.register (p : Poll) (d tok : Nat) (i : Ready) (o : PollOpt) :
    Except PollError Poll :=
  if p.hasDesc d then Except.error PollError.alreadyRegistered
  else Except.ok ⟨p.regs ++ [⟨d, tok, i, o⟩]⟩

/-- Modelled from the spec: `reregister(descriptor, token, interest, mode) -> Result`;
fails if the descriptor is not currently registered, otherwise replaces the
registration's token, interest and mode. -/
def Poll.reregister (p : Poll) (d tok : Nat) (i : Ready) (o : PollOpt) :
    Except PollError Poll :=
  if p.hasDesc d then
    Except.ok ⟨p.regs.map (fun r => if r.desc = d then ⟨d, tok, i, o⟩ else r)⟩
  else Except.error PollError.notRegistered

/-- Modelled from the spec: `deregister(descriptor) -> Result`; fails if the
descriptor is not registered, otherwise removes its registration. -/
def Poll.deregister (p : Poll) (d : Nat) : Except PollError Poll :=
  if p.hasDesc d then
    Except.ok ⟨p.regs.filter (fun r => !(r.desc == d))⟩
  else Except.error PollError.notRegistered

/-- Whether an `Except` is a success value. -/
def exceptOk {α β : Type} : Except α β → Bool
  | Except.ok _ => true
  | Except.error _ => false

/-- The `EventSource` trait of `sources/mod.rs` (the `Evented` super-trait
contributes the polled descriptor): a record of the trait's methods for a
concrete source type `E`. -/
structure EventSource (E : Type) where
  desc : E → Nat
  interest : E → Ready
  pollopts : E → PollOpt

/-- The `Source<E>` handle of `sources/mod.rs`: the wrapped source object and
its token.  The `poll` and `list` shared references are modelled as explicit
state arguments to the handle's operations. -/
structure Source (E : Type) where
  source : E
  token : Nat

/-- Modelled from the spec: the registry removal `remove(token) -> dispatcher`
of `list.rs` (`ErasedList::del_source`), which is not in the sources.  The
registry is a token-to-dispatcher association list; removal deletes the
token's entry and hands the dispatcher back. -/
def del_source : List (Nat × Nat) → Nat → List (Nat × Nat) × Option Nat
  | [], _ => ([], none)
  | (t', d) :: rest, t =>
    if t' = t then ((del_source rest t).1, some d)
    else ((t', d) :: (del_source rest t).1, (del_source rest t).2)

/-- `Source::reregister` (`sources/mod.rs` lines 68-75): re-register the
wrapped source with the backend under the stored token, with the interest and
pollopts the source currently advertises, surfacing the backend's result. -/
def Source.reregister {E : Type} (es : EventSource E) (s : Source E) (p : Poll) :
    Except PollError Poll :=
  p.reregister (es.desc s.source) s.token (es.interest s.source) (es.pollopts s.source)

/-- `Source::remove` (`sources/mod.rs` lines 80-84): deregister the descriptor
from the backend (`let _ =` discards the result; on failure the backend state
is unchanged), drop the registry entry for the token, and return the wrapped
source object.  The operation itself cannot fail. -/
def Source.remove {E : Type} (es : EventSource E) (s : Source E) (p : Poll)
    (l : List (Nat × Nat)) : E × Poll × (List (Nat × Nat) × Option Nat) :=
  let p' := match p.deregister (es.desc s.source) with
    | Except.ok q => q
    | Except.error _ => p
  (s.source, p', del_source l s.token)

/-- Modelled from the spec: a removal that surfaces the deregistration
failure to the caller ("OS registration/deregistration failure — surfaced to
the caller of `insert_source`/`remove`/`reregister`, never silently
dropped"), for comparison with the code's `Source.remove`. -/
def removeSurfacing {E : Type} (es : EventSource E) (s : Source E) (p : Poll)
    (l : List (Nat × Nat)) :
    Except PollError (E × Poll × (List (Nat × Nat) × Option Nat)) :=
  match p.deregister (es.desc s.source) with
  | Except.error e => Except.error e
  | Except.ok p' => Except.ok (s.source, p', del_source l s.token)

/-! ## The dispatcher protocol (`EventSource::make_dispatcher`, `EventDispatcher::ready`) -/

/-- The per-invocation arguments the code hands to the stored user callback,
read off the signature `F: FnMut(Self::Event, &mut Data)` of
`EventSource::make_dispatcher` (`sources/mod.rs` lines 31-34): the converted
event value and the shared application data. -/
abbrev CallbackArgs (Event Data : Type) : Type := Event × Data

/-- Modelled from the spec: the per-invocation arguments the spec describes —
"that event, a mutable view of the source's metadata, and the shared
application data". -/
abbrev SpecCallbackArgs (Event Metadata Data : Type) : Type := Event × Metadata × Data

/-- The result type of `EventDispatcher::ready` (`sources/mod.rs` lines
42-45): the method returns no value (`fn ready(&mut self, ready: Ready,
data: &mut Data)`); its only outward-visible effect is through the shared
data. -/
abbrev ReadyResult : Type := Unit

/-- Modelled from the spec: the result a dispatcher would need to "propagate
any callback-visible error outward rather than swallowing it" — success or a
callback-raised error. -/
abbrev SpecReadyResult (Err : Type) : Type := Except Err Unit

/-- Modelled from the spec (§4.2, the concrete `make_dispatcher`
implementations live in the adapter files, not in the sources): invoke the
user callback once per synthesized event, threading the shared data; the
callback has the code's signature, acting on the event and the data. -/
def dispatchEvents {Event Data : Type} (cb : Event → Data → Data) :
    List Event → Data → Data
  | [], d => d
  | e :: es, d => dispatchEvents cb es (cb e d)

/-- A dispatcher's `ready`: convert the readiness into the synthesized events
and invoke the callback once per event (modelled from the spec §4.2 for the
conversion; callback arguments per the code's signature). -/
def dispatcherReady {Event Data : Type} (conv : Ready → List Event)
    (cb : Event → Data → Data) (r : Ready) (d : Data) : Data :=
  dispatchEvents cb (conv r) d

/-- The sequence of argument pairs passed to the callback while dispatching a
list of events (instrumentation of `dispatchEvents`). -/
def dispatchTrace {Event Data : Type} (cb : Event → Data → Data) :
    List Event → Data → List (CallbackArgs Event Data)
  | [], _ => []
  | e :: es, d => (e, d) :: dispatchTrace cb es (cb e d)

/-- The sequence of argument pairs passed to the callback during one `ready`
invocation. -/
def readyTrace {Event Data : Type} (conv : Ready → List Event)
    (cb : Event → Data → Data) (r : Ready) (d : Data) :
    List (CallbackArgs Event Data) :=
  dispatchTrace cb (conv r) d

/-- A callback-argument trace is sequentially threaded from `d`: the first
invocation receives `d`, and each later invocation receives the data produced
by applying the callback to the previous invocation's arguments. -/
def Threaded {Event Data : Type} (cb : Event → Data → Data) :
    Data → List (CallbackArgs Event Data) → Prop
  | _, [] => True
  | d, (e, d') :: rest => d' = d ∧ Threaded cb (cb e d') rest

/-! ## Idle callbacks and the engine state -/

/-- The type-erased idle slot of `sources/mod.rs`:
`Option<Box<FnMut(&mut Data)>>` — the stored callback, `None` once run or
cancelled.  The boxed closure is represented by an identifier `α`. -/
abbrev ErasedIdle (α : Type) : Type := Option α

/-- `ErasedIdle::cancel` (`sources/mod.rs` lines 119-123): `self.take()` —
the slot is emptied (the taken value is discarded by `Idle::cancel`). -/
def ErasedIdle.cancel {α : Type} (_ : ErasedIdle α) : ErasedIdle α := none

/-- The `Idle` handle of `sources/mod.rs`: a shared reference to the
callback's cell, modelled as the cell's index in the engine's cell store. -/
structure Idle where
  id : Nat
deriving DecidableEq, Repr

/-- Modelled from the spec: the engine state `loop_logic.rs` owns (the file
is not in the sources) — the token-to-dispatcher registry, the next fresh
token, the store of idle cells (indexed by `Idle.id`, each an `ErasedIdle`
holding an idle-callback identifier) and the pending idle queue in insertion
order.  Dispatchers and idle callbacks are named by identifiers resolved
through environments, so reentrant behaviour is explicit data. -/
structure LoopState where
  registry : List (Nat × Nat)
  nextToken : Nat
  idleCells : List (ErasedIdle Nat)
  idleQueue : List Nat
deriving DecidableEq, Repr

/-- Registry lookup `get(token)` (modelled from the spec §4.3). -/
def regLookup : List (Nat × Nat) → Nat → Option Nat
  | [], _ => none
  | (t', d) :: rest, t => if t' = t then some d else regLookup rest t

/-- Modelled from the spec: `insert_idle(callback)` appends a fresh cell
holding the callback and queues it, returning the `Idle` handle to the cell. -/
def insertIdle (st : LoopState) (cb : Nat) : LoopState × Idle :=
  ({ st with
      idleCells := st.idleCells ++ [some cb]
      idleQueue := st.idleQueue ++ [st.idleCells.length] },
   ⟨st.idleCells.length⟩)

/-- `Idle::cancel` (`sources/mod.rs` lines 108-113): empty the handle's
shared cell through `ErasedIdle.cancel`; the queue is untouched. -/
def Idle.cancel (st : LoopState) (h : Idle) : LoopState :=
  { st with
      idleCells :=
        st.idleCells.set h.id (ErasedIdle.cancel (st.idleCells.getD h.id none)) }

/-- Dropping an `Idle` handle: the struct has no `Drop` implementation
("Dropping it will *not* cancel it"), so discarding the handle leaves the
engine state untouched. -/
def dropIdle (st : LoopState) (_ : Idle) : LoopState := st

/-- An observable callback invocation during a cycle: an I/O dispatcher
invoked for a token, or the idle callback of a cell run during a drain. -/
inductive Ev where
  | io (t : Nat)
  | idle (cell : Nat)
deriving DecidableEq, Repr

/-- Whether an event is an I/O dispatcher invocation. -/
def Ev.isIo : Ev → Bool
  | Ev.io _ => true
  | Ev.idle _ => false

/-- The cell index of an idle invocation, if the event is one. -/
def Ev.idleId : Ev → Option Nat
  | Ev.io _ => none
  | Ev.idle i => some i

/-- Count the occurrences of an event in a trace. -/
def countEv (e : Ev) : List Ev → Nat
  | [] => 0
  | x :: xs => (if x = e then 1 else 0) + countEv e xs

/-- The reentrant registry/idle mutations an I/O dispatcher performs when
invoked: tokens it removes, the dispatcher identifiers of sources it inserts
(each minted a fresh token), and the idle callbacks it inserts. -/
structure DispatcherAction where
  removes : List Nat
  inserts : List Nat
  idleInserts : List Nat

/-- Apply a dispatcher's reentrant mutations to the engine state: removals go
through the registry removal, insertions mint fresh tokens, idle insertions
append fresh queued cells. -/
def applyAction (a : DispatcherAction) (st : LoopState) : LoopState :=
  let reg₁ := a.removes.foldl (fun r t => (del_source r t).1) st.registry
  { registry := reg₁ ++ (List.range' st.nextToken a.inserts.length).zip a.inserts
    nextToken := st.nextToken + a.inserts.length
    idleCells := st.idleCells ++ a.idleInserts.map some
    idleQueue :=
      st.idleQueue ++ List.range' st.idleCells.length a.idleInserts.length }

/-- Modelled from the spec (§4.3, §4.5): process the snapshotted batch of
`(token, readiness)` pairs — for each pair look the token up in the *live*
registry; a missing entry is skipped, a present one is invoked (recorded as
`Ev.io token`) and its reentrant mutations applied. -/
def ioPhase (dEnv : Nat → DispatcherAction) (st : LoopState) :
    List (Nat × Ready) → LoopState × List Ev
  | [] => (st, [])
  | (t, _) :: rest =>
    match regLookup st.registry t with
    | none => ioPhase dEnv st rest
    | some d =>
      let r := ioPhase dEnv (applyAction (dEnv d) st) rest
      (r.1, Ev.io t :: r.2)

/-- Modelled from the spec (§4.4): drain the pending idle cells in order.
Each cell is taken (set to `none`) before its callback runs; an empty cell
(cancelled or already run) is skipped.  Running a callback records
`Ev.idle cell` and appends the callbacks it inserts as fresh queued-for-next-
cycle cells.  Arguments: the idle environment, the cell store, the pending
snapshot, the accumulated next-cycle queue. -/
def drainGo (ienv : Nat → List Nat) :
    List (ErasedIdle Nat) → List Nat → List Nat →
    List (ErasedIdle Nat) × List Nat × List Ev
  | cells, [], nq => (cells, nq, [])
  | cells, i :: rest, nq =>
    match cells.getD i none with
    | none => drainGo ienv cells rest nq
    | some c =>
      let cells₂ := (cells.set i none) ++ (ienv c).map some
      let newIds := List.range' (cells.set i none).length (ienv c).length
      let r := drainGo ienv cells₂ rest (nq ++ newIds)
      (r.1, r.2.1, Ev.idle i :: r.2.2)

/-- Modelled from the spec (§4.4): one idle drain — snapshot the queue,
process it, and leave the callbacks inserted during the drain as the next
cycle's queue. -/
def drainIdles (ienv : Nat → List Nat) (st : LoopState) : LoopState × List Ev :=
  let r := drainGo ienv st.idleCells st.idleQueue []
  ({ st with idleCells := r.1, idleQueue := r.2.1 }, r.2.2)

/-- Modelled from the spec (§4.5): one dispatch cycle — process the
snapshotted ready batch through the live registry, then drain the idle queue
once. -/
def dispatchCycle (dEnv : Nat → DispatcherAction) (ienv : Nat → List Nat)
    (st : LoopState) (batch : List (Nat × Ready)) : LoopState × List Ev :=
  let io := ioPhase dEnv st batch
  let dr := drainIdles ienv io.1
  (dr.1, io.2 ++ dr.2)

/-- A sequence of dispatch cycles, one per supplied batch, with the
concatenated invocation trace. -/
def runCycles (dEnv : Nat → DispatcherAction) (ienv : Nat → List Nat)
    (st : LoopState) : List (List (Nat × Ready)) → LoopState × List Ev
  | [] => (st, [])
  | b :: bs =>
    let c := dispatchCycle dEnv ienv st b
    let r := runCycles dEnv ienv c.1 bs
    (r.1, c.2 ++ r.2)

/-! ## Concrete fixtures used in closed instances -/

/-- A trivial unit event source polling descriptor 3. -/
def esU : EventSource Unit :=
  ⟨fun _ => 3, fun _ => ⟨true, false⟩, fun _ => ⟨false, false⟩⟩

/-- A handle to `esU` inserted under token 0. -/
def sU : Source Unit := ⟨(), 0⟩

/-- An empty polling backend. -/
def pollEmpty : Poll := ⟨[]⟩

/-- A backend with descriptor 3 registered under token 0. -/
def pollOne : Poll := ⟨[⟨3, 0, ⟨true, false⟩, ⟨false, false⟩⟩]⟩

/-- A dispatcher environment whose dispatchers perform no reentrant mutation. -/
def dEnvNop : Nat → DispatcherAction := fun _ => ⟨[], [], []⟩

/-- An idle environment whose callbacks insert nothing. -/
def ienvNop : Nat → List Nat := fun _ => []

/-- An engine state with one registered source (token 0) and one queued idle
cell (index 0, holding idle callback 0). -/
def stOne : LoopState := ⟨[(0, 0)], 1, [some 0], [0]⟩

/-! ## Helper lemmas: lists -/

theorem getD_set_ne {α : Type} (l : List α) (v d : α) {i j : Nat} (h : j ≠ i) :
    (l.set j v).getD i d = l.getD i d := by
  simp [List.getD_eq_getElem?_getD, List.getElem?_set_ne h]

theorem getD_append_lt {α : Type} (l l₂ : List α) (d : α) {i : Nat}
    (h : i < l.length) : (l ++ l₂).getD i d = l.getD i d :=
  List.getD_append _ _ _ _ h

theorem lt_length_of_getD_some {α : Type} {l : List (Option α)} {i : Nat} {c : α}
    (h : l.getD i none = some c) : i < l.length := by
  by_contra hn
  rw [List.getD_eq_default _ _ (Nat.le_of_not_lt hn)] at h
  exact Option.noConfusion h

theorem set_none_of_getD_none {α : Type} :
    ∀ (l : List (Option α)) (i : Nat), l.getD i none = none → l.set i none = l
  | [], _, _ => rfl
  | a :: t, 0, h => by
      simp only [List.getD_cons_zero] at h
      simp [h]
  | a :: t, i + 1, h => by
      simp only [List.getD_cons_succ] at h
      simp [set_none_of_getD_none t i h]

/-! ## Helper lemmas: registry -/

theorem mem_del_source {t : Nat} :
    ∀ {l : List (Nat × Nat)} {e : Nat × Nat},
      e ∈ (del_source l t).1 ↔ e ∈ l ∧ e.1 ≠ t := by
  intro l
  induction l with
  | nil => simp [del_source]
  | cons a rest ih =>
      intro e
      rcases a with ⟨t', d⟩
      by_cases h : t' = t
      · subst h
        simp only [del_source, eq_self_iff_true, if_true, ih, List.mem_cons]
        constructor
        · rintro ⟨he, hne⟩
          exact ⟨Or.inr he, hne⟩
        · rintro ⟨rfl | he, hne⟩
          · exact absurd rfl hne
          · exact ⟨he, hne⟩
      · simp only [del_source, if_neg h, List.mem_cons, ih]
        constructor
        · rintro (rfl | ⟨he, hne⟩)
          · exact ⟨Or.inl rfl, h⟩
          · exact ⟨Or.inr he, hne⟩
        · rintro ⟨rfl | he, hne⟩
          · exact Or.inl rfl
          · exact Or.inr ⟨he, hne⟩

theorem regLookup_some_mem :
    ∀ {l : List (Nat × Nat)} {t d : Nat}, regLookup l t = some d → (t, d) ∈ l := by
  intro l
  induction l with
  | nil => intro t d h; exact Option.noConfusion h
  | cons a rest ih =>
      intro t d h
      rcases a with ⟨t', d'⟩
      by_cases ha : t' = t
      · subst ha
        simp only [regLookup, eq_self_iff_true, if_true, Option.some.injEq] at h
        subst h
        exact List.mem_cons_self _ _
      · simp only [regLookup, if_neg ha] at h
        exact List.mem_cons_of_mem _ (ih h)

theorem regLookup_ne_none {l : List (Nat × Nat)} {t d : Nat} (h : (t, d) ∈ l) :
    ∃ d', regLookup l t = some d' := by
  induction l with
  | nil => cases h
  | cons a rest ih =>
      rcases a with ⟨t', d'⟩
      by_cases ha : t' = t
      · exact ⟨d', by simp [regLookup, ha]⟩
      · rcases List.mem_cons.1 h with he | hm
        · cases he; exact absurd rfl ha
        · simpa [regLookup, ha] using ih hm

theorem regLookup_eq_none {l : List (Nat × Nat)} {t : Nat}
    (h : ∀ e ∈ l, e.1 ≠ t) : regLookup l t = none := by
  induction l with
  | nil => rfl
  | cons a rest ih =>
      rcases a with ⟨t', d'⟩
      have ha := h (t', d') (List.mem_cons_self _ _)
      simp only [regLookup, if_neg ha]
      exact ih fun e he => h e (List.mem_cons_of_mem _ he)

theorem mem_foldl_del_source {rm : List Nat} :
    ∀ {reg : List (Nat × Nat)} {e : Nat × Nat},
      e ∈ rm.foldl (fun r t => (del_source r t).1) reg → e ∈ reg := by
  induction rm with
  | nil => intro _ _ h; exact h
  | cons t rest ih =>
      intro reg e h
      exact (mem_del_source.1 (ih h)).1

theorem mem_foldl_del_source_keep {rm : List Nat} :
    ∀ {reg : List (Nat × Nat)} {e : Nat × Nat},
      e ∈ reg → e.1 ∉ rm → e ∈ rm.foldl (fun r t => (del_source r t).1) reg := by
  induction rm with
  | nil => intro _ _ h _; exact h
  | cons t rest ih =>
      intro reg e h hn
      refine ih (mem_del_source.2 ⟨h, ?_⟩) ?_
      · intro he; exact hn (he ▸ List.mem_cons_self _ _)
      · intro he; exact hn (List.mem_cons_of_mem _ he)

/-! ## Helper lemmas: applyAction -/

theorem applyAction_nextToken_le (a : DispatcherAction) (st : LoopState) :
    st.nextToken ≤ (applyAction a st).nextToken :=
  Nat.le_add_right _ _

theorem applyAction_mem_registry {a : DispatcherAction} {st : LoopState}
    {e : Nat × Nat} (h : e ∈ (applyAction a st).registry) :
    e ∈ st.registry ∨ (st.nextToken ≤ e.1 ∧ e.1 < st.nextToken + a.inserts.length) := by
  rcases List.mem_append.1 h with hm | hm
  · exact Or.inl (mem_foldl_del_source hm)
  · rcases e with ⟨t, d⟩
    have := (List.of_mem_zip hm).1
    rw [List.mem_range'_1] at this
    exact Or.inr this

theorem applyAction_token_bound {a : DispatcherAction} {st : LoopState}
    (h : ∀ e ∈ st.registry, e.1 < st.nextToken) :
    ∀ e ∈ (applyAction a st).registry, e.1 < (applyAction a st).nextToken := by
  intro e he
  rcases applyAction_mem_registry he with hm | ⟨_, hlt⟩
  · exact Nat.lt_of_lt_of_le (h e hm) (applyAction_nextToken_le a st)
  · exact hlt

theorem applyAction_not_tok {a : DispatcherAction} {st : LoopState} {t : Nat}
    (hlt : t < st.nextToken) (h : ∀ e ∈ st.registry, e.1 ≠ t) :
    ∀ e ∈ (applyAction a st).registry, e.1 ≠ t := by
  intro e he
  rcases applyAction_mem_registry he with hm | ⟨hge, _⟩
  · exact h e hm
  · intro het; rw [het] at hge; exact absurd hlt (Nat.not_lt_of_le hge)

theorem applyAction_keep {a : DispatcherAction} {st : LoopState} {t d : Nat}
    (h : (t, d) ∈ st.registry) (hn : t ∉ a.removes) :
    (t, d) ∈ (applyAction a st).registry :=
  List.mem_append.2 (Or.inl (mem_foldl_del_source_keep h hn))

theorem applyAction_cells (a : DispatcherAction) (st : LoopState) :
    (applyAction a st).idleCells = st.idleCells ++ a.idleInserts.map some := rfl

theorem applyAction_queue (a : DispatcherAction) (st : LoopState) :
    (applyAction a st).idleQueue =
      st.idleQueue ++ List.range' st.idleCells.length a.idleInserts.length := rfl

theorem applyAction_queue_valid {a : DispatcherAction} {st : LoopState}
    (h : ∀ i ∈ st.idleQueue, i < st.idleCells.length) :
    ∀ i ∈ (applyAction a st).idleQueue, i < (applyAction a st).idleCells.length := by
  intro i hi
  rw [applyAction_queue] at hi
  rw [applyAction_cells, List.length_append, List.length_map]
  rcases List.mem_append.1 hi with hm | hm
  · exact Nat.lt_of_lt_of_le (h i hm) (Nat.le_add_right _ _)
  · rw [List.mem_range'_1] at hm
    exact hm.2

/-! ## Helper lemmas: the poll backend -/

theorem Poll.hasDesc_iff {p : Poll} {d : Nat} :
    p.hasDesc d = true ↔ ∃ r ∈ p.regs, r.desc = d := by
  simp [Poll.hasDesc]

/-! ## Helper lemmas: the idle drain -/

theorem countEv_eq_zero {e : Ev} : ∀ {l : List Ev}, e ∉ l → countEv e l = 0
  | [], _ => rfl
  | x :: xs, h => by
      have hx : ¬x = e := fun hx => h (hx ▸ List.mem_cons_self _ _)
      simp only [countEv, if_neg hx, Nat.zero_add]
      exact countEv_eq_zero fun hm => h (List.mem_cons_of_mem _ hm)

theorem mem_filterMap_idleId {evs : List Ev} {i : Nat} :
    i ∈ evs.filterMap Ev.idleId ↔ Ev.idle i ∈ evs := by
  rw [List.mem_filterMap]
  constructor
  · rintro ⟨e, he, hid⟩
    cases e with
    | io t => exact Option.noConfusion hid
    | idle j =>
        cases hid
        exact he
  · intro h
    exact ⟨Ev.idle i, h, rfl⟩

theorem drainGo_events_idle {ienv : Nat → List Nat} :
    ∀ (pending : List Nat) (cells : List (ErasedIdle Nat)) (nq : List Nat)
      (e : Ev), e ∈ (drainGo ienv cells pending nq).2.2 → e.isIo = false := by
  intro pending
  induction pending with
  | nil => intro cells nq e h; simp [drainGo] at h
  | cons i rest ih =>
      intro cells nq e h
      cases hc : cells.getD i none with
      | none =>
          rw [drainGo, hc] at h
          exact ih _ _ _ h
      | some c =>
          rw [drainGo, hc] at h
          simp only [List.mem_cons] at h
          rcases h with rfl | h
          · rfl
          · exact ih _ _ _ h

theorem drainGo_length_mono {ienv : Nat → List Nat} :
    ∀ (pending : List Nat) (cells : List (ErasedIdle Nat)) (nq : List Nat),
      cells.length ≤ (drainGo ienv cells pending nq).1.length := by
  intro pending
  induction pending with
  | nil => intro cells nq; simp [drainGo]
  | cons i rest ih =>
      intro cells nq
      cases hc : cells.getD i none with
      | none => rw [drainGo, hc]; exact ih _ _
      | some c =>
          rw [drainGo, hc]
          refine Nat.le_trans ?_ (ih _ _)
          simp

theorem drainGo_none_stable (ienv : Nat → List Nat) {i : Nat} :
    ∀ (pending : List Nat) (cells : List (ErasedIdle Nat)) (nq : List Nat),
      i < cells.length → cells.getD i none = none →
      (drainGo ienv cells pending nq).1.getD i none = none ∧
      i < (drainGo ienv cells pending nq).1.length ∧
      Ev.idle i ∉ (drainGo ienv cells pending nq).2.2 := by
  intro pending
  induction pending with
  | nil =>
      intro cells nq hlt hn
      exact ⟨by simpa [drainGo] using hn, by simpa [drainGo] using hlt,
        by simp [drainGo]⟩
  | cons j rest ih =>
      intro cells nq hlt hn
      cases hc : cells.getD j none with
      | none => rw [drainGo, hc]; exact ih _ _ hlt hn
      | some c =>
          have hji : j ≠ i := fun hj => by rw [hj, hn] at hc; exact Option.noConfusion hc
          have hlen : i < ((cells.set j none) ++ (ienv c).map some).length := by
            simp only [List.length_append, List.length_set]
            exact Nat.lt_of_lt_of_le hlt (Nat.le_add_right _ _)
          have hnone : ((cells.set j none) ++ (ienv c).map some).getD i none = none := by
            rw [getD_append_lt _ _ _ (by simpa using hlt), getD_set_ne _ _ _ hji]
            exact hn
          rw [drainGo, hc]
          rcases ih _ (nq ++ List.range' (cells.set j none).length (ienv c).length)
            hlen hnone with ⟨h₁, h₂, h₃⟩
          refine ⟨h₁, h₂, ?_⟩
          simp only [List.mem_cons]
          rintro (he | he)
          · exact hji (by injection he.symm)
          · exact h₃ he

theorem drainGo_event_none {ienv : Nat → List Nat} {i : Nat} :
    ∀ (pending : List Nat) (cells : List (ErasedIdle Nat)) (nq : List Nat),
      Ev.idle i ∈ (drainGo ienv cells pending nq).2.2 →
      (drainGo ienv cells pending nq).1.getD i none = none ∧
      i < (drainGo ienv cells pending nq).1.length := by
  intro pending
  induction pending with
  | nil => intro cells nq h; simp [drainGo] at h
  | cons j rest ih =>
      intro cells nq h
      cases hc : cells.getD j none with
      | none => rw [drainGo, hc] at h ⊢; exact ih _ _ h
      | some c =>
          rw [drainGo, hc] at h ⊢
          simp only [List.mem_cons] at h
          rcases h with he | he
          · cases he
            have hlt : i < cells.length := lt_length_of_getD_some hc
            have hlen : i < ((cells.set i none) ++ (ienv c).map some).length := by
              simp only [List.length_append, List.length_set]
              exact Nat.lt_of_lt_of_le hlt (Nat.le_add_right _ _)
            have hnone : ((cells.set i none) ++ (ienv c).map some).getD i none = none := by
              rw [getD_append_lt _ _ _ (by simpa using hlt)]
              simp [List.getD_eq_getElem?_getD, List.getElem?_set_self hlt]
            have hs := drainGo_none_stable ienv
              rest _ (nq ++ List.range' (cells.set i none).length (ienv c).length)
              hlen hnone
            exact ⟨hs.1, hs.2.1⟩
          · exact ih _ _ he

theorem drainGo_count_le_one {ienv : Nat → List Nat} {i : Nat} :
    ∀ (pending : List Nat) (cells : List (ErasedIdle Nat)) (nq : List Nat),
      countEv (Ev.idle i) (drainGo ienv cells pending nq).2.2 ≤ 1 := by
  intro pending
  induction pending with
  | nil => intro cells nq; simp [drainGo, countEv]
  | cons j rest ih =>
      intro cells nq
      cases hc : cells.getD j none with
      | none => rw [drainGo, hc]; exact ih _ _
      | some c =>
          rw [drainGo, hc]
          by_cases hji : j = i
          · subst hji
            have hlt : j < cells.length := lt_length_of_getD_some hc
            have hlen : j < ((cells.set j none) ++ (ienv c).map some).length := by
              simp only [List.length_append, List.length_set]
              exact Nat.lt_of_lt_of_le hlt (Nat.le_add_right _ _)
            have hnone : ((cells.set j none) ++ (ienv c).map some).getD j none = none := by
              rw [getD_append_lt _ _ _ (by simpa using hlt)]
              simp [List.getD_eq_getElem?_getD, List.getElem?_set_self hlt]
            have hout := (drainGo_none_stable ienv
              rest _ (nq ++ List.range' (cells.set j none).length (ienv c).length)
              hlen hnone).2.2
            simp only [List.length_set] at hout
            simp [countEv, countEv_eq_zero hout]
          · simp only [countEv, Ev.idle.injEq, if_neg hji, Nat.zero_add]
            exact ih _ _

theorem drainGo_run_of_mem {ienv : Nat → List Nat} {i c : Nat} :
    ∀ (pending : List Nat) (cells : List (ErasedIdle Nat)) (nq : List Nat),
      i ∈ pending → cells.getD i none = some c →
      Ev.idle i ∈ (drainGo ienv cells pending nq).2.2 := by
  intro pending
  induction pending with
  | nil => intro cells nq h; cases h
  | cons j rest ih =>
      intro cells nq hm hc
      by_cases hji : j = i
      · subst hji
        rw [drainGo, hc]
        exact List.mem_cons_self _ _
      · have hm' : i ∈ rest := by
          rcases List.mem_cons.1 hm with rfl | h
          · exact absurd rfl hji
          · exact h
        cases hcj : cells.getD j none with
        | none => rw [drainGo, hcj]; exact ih _ _ hm' hc
        | some cj =>
            rw [drainGo, hcj]
            have hlt : i < cells.length := lt_length_of_getD_some hc
            have hkeep : ((cells.set j none) ++ (ienv cj).map some).getD i none = some c := by
              rw [getD_append_lt _ _ _ (by simpa using hlt), getD_set_ne _ _ _ hji]
              exact hc
            exact List.mem_cons_of_mem _ (ih _ _ hm' hkeep)

theorem drainGo_ids_sublist {ienv : Nat → List Nat} :
    ∀ (pending : List Nat) (cells : List (ErasedIdle Nat)) (nq : List Nat),
      List.Sublist ((drainGo ienv cells pending nq).2.2.filterMap Ev.idleId) pending := by
  intro pending
  induction pending with
  | nil => intro cells nq; simp [drainGo]
  | cons j rest ih =>
      intro cells nq
      cases hc : cells.getD j none with
      | none =>
          rw [drainGo, hc]
          exact List.Sublist.cons _ (ih _ _)
      | some c =>
          rw [drainGo, hc]
          simp only [List.filterMap_cons, Ev.idleId]
          exact List.Sublist.cons₂ _ (ih _ _)

theorem drainGo_nq_mem {ienv : Nat → List Nat} :
    ∀ (pending : List Nat) (cells : List (ErasedIdle Nat)) (nq : List Nat)
      (j : Nat), j ∈ (drainGo ienv cells pending nq).2.1 →
      j ∈ nq ∨ cells.length ≤ j := by
  intro pending
  induction pending with
  | nil => intro cells nq j h; simp only [drainGo] at h; exact Or.inl h
  | cons k rest ih =>
      intro cells nq j h
      cases hc : cells.getD k none with
      | none => rw [drainGo, hc] at h; exact ih _ _ _ h
      | some c =>
          rw [drainGo, hc] at h
          rcases ih _ _ _ h with hm | hge
          · rcases List.mem_append.1 hm with hm' | hm'
            · exact Or.inl hm'
            · rw [List.mem_range'_1] at hm'
              right
              simpa using hm'.1
          · right
            refine Nat.le_trans ?_ hge
            simp

/-! ## Helper lemmas: the I/O phase -/

theorem ioPhase_events_io {dEnv : Nat → DispatcherAction} :
    ∀ (batch : List (Nat × Ready)) (st : LoopState) (e : Ev),
      e ∈ (ioPhase dEnv st batch).2 → e.isIo = true := by
  intro batch
  induction batch with
  | nil => intro st e h; simp [ioPhase] at h
  | cons p rest ih =>
      intro st e h
      rcases p with ⟨t, r⟩
      cases hl : regLookup st.registry t with
      | none => rw [ioPhase, hl] at h; exact ih _ _ h
      | some d =>
          rw [ioPhase, hl] at h
          simp only [List.mem_cons] at h
          rcases h with rfl | h
          · rfl
          · exact ih _ _ h

theorem ioPhase_io_mem_batch {dEnv : Nat → DispatcherAction} {t : Nat} :
    ∀ (batch : List (Nat × Ready)) (st : LoopState),
      Ev.io t ∈ (ioPhase dEnv st batch).2 → t ∈ batch.map Prod.fst := by
  intro batch
  induction batch with
  | nil => intro st h; simp [ioPhase] at h
  | cons p rest ih =>
      intro st h
      rcases p with ⟨t', r⟩
      cases hl : regLookup st.registry t' with
      | none =>
          rw [ioPhase, hl] at h
          exact List.mem_cons_of_mem _ (ih _ h)
      | some d =>
          rw [ioPhase, hl] at h
          simp only [List.mem_cons] at h
          rcases h with he | h
          · injection he with he'
            simp [he']
          · exact List.mem_cons_of_mem _ (ih _ h)

theorem ioPhase_token_stable (dEnv : Nat → DispatcherAction) {t : Nat} :
    ∀ (batch : List (Nat × Ready)) (st : LoopState),
      (∀ e ∈ st.registry, e.1 < st.nextToken) → t < st.nextToken →
      (∀ e ∈ st.registry, e.1 ≠ t) →
      (∀ e ∈ (ioPhase dEnv st batch).1.registry,
          e.1 < (ioPhase dEnv st batch).1.nextToken) ∧
      t < (ioPhase dEnv st batch).1.nextToken ∧
      (∀ e ∈ (ioPhase dEnv st batch).1.registry, e.1 ≠ t) ∧
      Ev.io t ∉ (ioPhase dEnv st batch).2 := by
  intro batch
  induction batch with
  | nil =>
      intro st hb hlt hn
      exact ⟨by simpa [ioPhase] using hb, by simpa [ioPhase] using hlt,
        by simpa [ioPhase] using hn, by simp [ioPhase]⟩
  | cons p rest ih =>
      intro st hb hlt hn
      rcases p with ⟨t', r⟩
      cases hl : regLookup st.registry t' with
      | none => rw [ioPhase, hl]; exact ih _ hb hlt hn
      | some d =>
          rw [ioPhase, hl]
          have ht' : t' ≠ t := by
            have := hn _ (regLookup_some_mem hl)
            simpa using this
          have hb' := applyAction_token_bound (a := dEnv d) hb
          have hlt' := Nat.lt_of_lt_of_le hlt
            (applyAction_nextToken_le (dEnv d) st)
          have hn' := applyAction_not_tok (a := dEnv d) hlt hn
          rcases ih _ hb' hlt' hn' with ⟨h₁, h₂, h₃, h₄⟩
          refine ⟨h₁, h₂, h₃, ?_⟩
          simp only [List.mem_cons]
          rintro (he | he)
          · exact ht' (by injection he.symm)
          · exact h₄ he

theorem ioPhase_cells_queue (dEnv : Nat → DispatcherAction) :
    ∀ (batch : List (Nat × Ready)) (st : LoopState),
      ∃ ex exq,
        (ioPhase dEnv st batch).1.idleCells = st.idleCells ++ ex ∧
        (ioPhase dEnv st batch).1.idleQueue = st.idleQueue ++ exq := by
  intro batch
  induction batch with
  | nil => intro st; exact ⟨[], [], by simp [ioPhase], by simp [ioPhase]⟩
  | cons p rest ih =>
      intro st
      rcases p with ⟨t, r⟩
      cases hl : regLookup st.registry t with
      | none => rw [ioPhase, hl]; exact ih _
      | some d =>
          rw [ioPhase, hl]
          rcases ih (applyAction (dEnv d) st) with ⟨ex, exq, h₁, h₂⟩
          rw [applyAction_cells] at h₁
          rw [applyAction_queue] at h₂
          exact ⟨(dEnv d).idleInserts.map some ++ ex,
            List.range' st.idleCells.length (dEnv d).idleInserts.length ++ exq,
            by simpa using h₁, by simpa using h₂⟩

theorem ioPhase_queue_valid {dEnv : Nat → DispatcherAction} :
    ∀ (batch : List (Nat × Ready)) (st : LoopState),
      (∀ i ∈ st.idleQueue, i < st.idleCells.length) →
      ∀ i ∈ (ioPhase dEnv st batch).1.idleQueue,
        i < (ioPhase dEnv st batch).1.idleCells.length := by
  intro batch
  induction batch with
  | nil => intro st h; simpa [ioPhase] using h
  | cons p rest ih =>
      intro st h
      rcases p with ⟨t, r⟩
      cases hl : regLookup st.registry t with
      | none => rw [ioPhase, hl]; exact ih _ h
      | some d => rw [ioPhase, hl]; exact ih _ (applyAction_queue_valid h)

theorem ioPhase_live_runs {dEnv : Nat → DispatcherAction} {t : Nat}
    (hno : ∀ d, t ∉ (dEnv d).removes) :
    ∀ (batch : List (Nat × Ready)) (st : LoopState) (d : Nat) (r : Ready),
      (t, r) ∈ batch → (t, d) ∈ st.registry →
      Ev.io t ∈ (ioPhase dEnv st batch).2 := by
  intro batch
  induction batch with
  | nil => intro st d r h; cases h
  | cons p rest ih =>
      intro st d r hm hreg
      rcases p with ⟨t', r'⟩
      by_cases ht : t' = t
      · subst ht
        rcases regLookup_ne_none hreg with ⟨d', hl⟩
        rw [ioPhase, hl]
        exact List.mem_cons_self _ _
      · have hm' : (t, r) ∈ rest := by
          rcases List.mem_cons.1 hm with he | h
          · cases he; exact absurd rfl ht
          · exact h
        cases hl : regLookup st.registry t' with
        | none => rw [ioPhase, hl]; exact ih _ _ _ hm' hreg
        | some d' =>
            rw [ioPhase, hl]
            exact List.mem_cons_of_mem _
              (ih _ _ _ hm' (applyAction_keep hreg (hno d')))

/-! ## Helper lemmas: cycle level -/

theorem drainIdles_registry (ienv : Nat → List Nat) (st : LoopState) :
    (drainIdles ienv st).1.registry = st.registry := rfl

theorem drainIdles_nextToken (ienv : Nat → List Nat) (st : LoopState) :
    (drainIdles ienv st).1.nextToken = st.nextToken := rfl

theorem countEv_append (e : Ev) :
    ∀ l₁ l₂ : List Ev, countEv e (l₁ ++ l₂) = countEv e l₁ + countEv e l₂ := by
  intro l₁ l₂
  induction l₁ with
  | nil => simp [countEv]
  | cons x xs ih => simp [countEv, ih, Nat.add_assoc]

theorem dispatchCycle_token_stable (dEnv : Nat → DispatcherAction)
    (ienv : Nat → List Nat) {t : Nat} (st : LoopState)
    (batch : List (Nat × Ready))
    (hb : ∀ e ∈ st.registry, e.1 < st.nextToken) (hlt : t < st.nextToken)
    (hn : ∀ e ∈ st.registry, e.1 ≠ t) :
    (∀ e ∈ (dispatchCycle dEnv ienv st batch).1.registry,
        e.1 < (dispatchCycle dEnv ienv st batch).1.nextToken) ∧
    t < (dispatchCycle dEnv ienv st batch).1.nextToken ∧
    (∀ e ∈ (dispatchCycle dEnv ienv st batch).1.registry, e.1 ≠ t) ∧
    Ev.io t ∉ (dispatchCycle dEnv ienv st batch).2 := by
  rcases ioPhase_token_stable dEnv batch st hb hlt hn with ⟨h₁, h₂, h₃, h₄⟩
  have hreg := drainIdles_registry ienv (ioPhase dEnv st batch).1
  have htok := drainIdles_nextToken ienv (ioPhase dEnv st batch).1
  refine ⟨?_, ?_, ?_, ?_⟩
  · intro e he
    rw [dispatchCycle] at he ⊢
    rw [hreg] at he
    rw [htok]
    exact h₁ e he
  · rw [dispatchCycle, htok]; exact h₂
  · intro e he
    rw [dispatchCycle] at he
    rw [hreg] at he
    exact h₃ e he
  · rw [dispatchCycle]
    intro hm
    rcases List.mem_append.1 hm with hm' | hm'
    · exact h₄ hm'
    · have := drainGo_events_idle _ _ _ _ hm'
      exact Bool.noConfusion this

theorem runCycles_no_io (dEnv : Nat → DispatcherAction)
    (ienv : Nat → List Nat) {t : Nat} :
    ∀ (batches : List (List (Nat × Ready))) (st : LoopState),
      (∀ e ∈ st.registry, e.1 < st.nextToken) → t < st.nextToken →
      (∀ e ∈ st.registry, e.1 ≠ t) →
      Ev.io t ∉ (runCycles dEnv ienv st batches).2 := by
  intro batches
  induction batches with
  | nil => intro st _ _ _; simp [runCycles]
  | cons b bs ih =>
      intro st hb hlt hn
      rcases dispatchCycle_token_stable dEnv ienv st b hb hlt hn
        with ⟨h₁, h₂, h₃, h₄⟩
      rw [runCycles]
      intro hm
      rcases List.mem_append.1 hm with hm' | hm'
      · exact h₄ hm'
      · exact ih _ h₁ h₂ h₃ hm'

theorem dispatchCycle_none_stable (dEnv : Nat → DispatcherAction)
    (ienv : Nat → List Nat) {i : Nat} (st : LoopState)
    (batch : List (Nat × Ready))
    (hlt : i < st.idleCells.length) (hn : st.idleCells.getD i none = none) :
    (dispatchCycle dEnv ienv st batch).1.idleCells.getD i none = none ∧
    i < (dispatchCycle dEnv ienv st batch).1.idleCells.length ∧
    Ev.idle i ∉ (dispatchCycle dEnv ienv st batch).2 := by
  rcases ioPhase_cells_queue dEnv batch st with ⟨ex, exq, hc, hq⟩
  have hlt₁ : i < (ioPhase dEnv st batch).1.idleCells.length := by
    rw [hc, List.length_append]
    exact Nat.lt_of_lt_of_le hlt (Nat.le_add_right _ _)
  have hn₁ : (ioPhase dEnv st batch).1.idleCells.getD i none = none := by
    rw [hc, getD_append_lt _ _ _ hlt]
    exact hn
  have hs := drainGo_none_stable ienv
    (ioPhase dEnv st batch).1.idleQueue (ioPhase dEnv st batch).1.idleCells []
    hlt₁ hn₁
  refine ⟨hs.1, hs.2.1, ?_⟩
  rw [dispatchCycle]
  intro hm
  rcases List.mem_append.1 hm with hm' | hm'
  · have := ioPhase_events_io _ _ _ hm'
    exact Bool.noConfusion this
  · exact hs.2.2 hm'

theorem runCycles_none_stable (dEnv : Nat → DispatcherAction)
    (ienv : Nat → List Nat) {i : Nat} :
    ∀ (batches : List (List (Nat × Ready))) (st : LoopState),
      i < st.idleCells.length → st.idleCells.getD i none = none →
      (runCycles dEnv ienv st batches).1.idleCells.getD i none = none ∧
      i < (runCycles dEnv ienv st batches).1.idleCells.length ∧
      Ev.idle i ∉ (runCycles dEnv ienv st batches).2 := by
  intro batches
  induction batches with
  | nil =>
      intro st hlt hn
      exact ⟨hn, hlt, by simp [runCycles]⟩
  | cons b bs ih =>
      intro st hlt hn
      rcases dispatchCycle_none_stable dEnv ienv st b hlt hn
        with ⟨h₁, h₂, h₃⟩
      rcases ih _ h₂ h₁ with ⟨g₁, g₂, g₃⟩
      refine ⟨g₁, g₂, ?_⟩
      rw [runCycles]
      intro hm
      rcases List.mem_append.1 hm with hm' | hm'
      · exact h₃ hm'
      · exact g₃ hm'

theorem dispatchCycle_idle_mem_none (dEnv : Nat → DispatcherAction)
    (ienv : Nat → List Nat) {i : Nat} (st : LoopState)
    (batch : List (Nat × Ready))
    (hm : Ev.idle i ∈ (dispatchCycle dEnv ienv st batch).2) :
    (dispatchCycle dEnv ienv st batch).1.idleCells.getD i none = none ∧
    i < (dispatchCycle dEnv ienv st batch).1.idleCells.length := by
  rw [dispatchCycle] at hm ⊢
  rcases List.mem_append.1 hm with hm' | hm'
  · have := ioPhase_events_io _ _ _ hm'
    exact Bool.noConfusion this
  · exact drainGo_event_none _ _ _ hm'

theorem dispatchCycle_count_le_one {dEnv : Nat → DispatcherAction}
    {ienv : Nat → List Nat} {i : Nat} (st : LoopState)
    (batch : List (Nat × Ready)) :
    countEv (Ev.idle i) (dispatchCycle dEnv ienv st batch).2 ≤ 1 := by
  rw [dispatchCycle, countEv_append]
  have h₀ : countEv (Ev.idle i) (ioPhase dEnv st batch).2 = 0 := by
    refine countEv_eq_zero ?_
    intro hm
    have := ioPhase_events_io _ _ _ hm
    exact Bool.noConfusion this
  rw [h₀, Nat.zero_add]
  exact drainGo_count_le_one _ _ _

theorem runCycles_count_le_one {dEnv : Nat → DispatcherAction}
    {ienv : Nat → List Nat} {i : Nat} :
    ∀ (batches : List (List (Nat × Ready))) (st : LoopState),
      countEv (Ev.idle i) (runCycles dEnv ienv st batches).2 ≤ 1 := by
  intro batches
  induction batches with
  | nil => intro st; simp [runCycles, countEv]
  | cons b bs ih =>
      intro st
      rw [runCycles, countEv_append]
      by_cases hm : Ev.idle i ∈ (dispatchCycle dEnv ienv st b).2
      · rcases dispatchCycle_idle_mem_none dEnv ienv st b hm with ⟨h₁, h₂⟩
        have hz := (runCycles_none_stable dEnv ienv
          bs _ h₂ h₁).2.2
        rw [countEv_eq_zero hz]
        exact Nat.add_le_add (dispatchCycle_count_le_one st b) (Nat.le_refl 0)
      · rw [countEv_eq_zero hm, Nat.zero_add]
        exact ih _

/-! ## Helper lemmas: poll operation success cases -/

theorem hasDesc_filter_self (p : Poll) (d : Nat) :
    (Poll.mk (p.regs.filter (fun r => !(r.desc == d)))).hasDesc d = false := by
  rw [Bool.eq_false_iff]
  intro h
  rw [Poll.hasDesc, List.any_eq_true] at h
  rcases h with ⟨r, hr, he⟩
  rw [List.mem_filter] at hr
  rw [he] at hr
  simp at hr

theorem Poll.register_ok {p : Poll} {d tok : Nat} {i : Ready} {o : PollOpt}
    {q : Poll} (h : p.register d tok i o = Except.ok q) :
    q.regs = p.regs ++ [⟨d, tok, i, o⟩] := by
  rw [Poll.register] at h
  by_cases hd : p.hasDesc d
  · rw [if_pos hd] at h; exact Except.noConfusion h
  · rw [if_neg hd] at h
    cases h
    rfl

theorem Poll.deregister_ok {p : Poll} {d : Nat} {q : Poll}
    (h : p.deregister d = Except.ok q) :
    q.regs = p.regs.filter (fun r => !(r.desc == d)) := by
  rw [Poll.deregister] at h
  by_cases hd : p.hasDesc d
  · rw [if_pos hd] at h
    cases h
    rfl
  · rw [if_neg hd] at h; exact Except.noConfusion h

theorem Poll.reregister_ok {p : Poll} {d tok : Nat} {i : Ready} {o : PollOpt}
    {q : Poll} (h : p.reregister d tok i o = Except.ok q) :
    q.regs = p.regs.map (fun r => if r.desc = d then ⟨d, tok, i, o⟩ else r) := by
  rw [Poll.reregister] at h
  by_cases hd : p.hasDesc d
  · rw [if_pos hd] at h
    cases h
    rfl
  · rw [if_neg hd] at h; exact Except.noConfusion h

/-! ## Claim C9 -/

/-- Claim C9: `Source::remove` never fails — for every backend and registry
state it returns the wrapped source object, the registry entry for its token
is removed regardless, and when the OS deregistration fails the error is
discarded, the backend state being left as it was. -/
theorem remove_never_fails {E : Type} (es : EventSource E) (s : Source E)
    (p : Poll) (l : List (Nat × Nat)) :
    (Source.remove es s p l).1 = s.source ∧
    (∀ e ∈ (Source.remove es s p l).2.2.1, e.1 ≠ s.token) ∧
    (exceptOk (p.deregister (es.desc s.source)) = false →
      (Source.remove es s p l).2.1 = p) := by
  refine ⟨rfl, ?_, ?_⟩
  · intro e he
    have he' : e ∈ (del_source l s.token).1 := he
    exact (mem_del_source.1 he').2
  · intro herr
    cases hd : p.deregister (es.desc s.source) with
    | ok q => rw [hd] at herr; exact Bool.noConfusion herr
    | error e => simp [Source.remove, hd]

/-- Closed instance of `remove_never_fails`: removing from an empty backend
(where deregistration fails) still returns the source and leaves the backend
unchanged. -/
theorem remove_never_fails_witness :
    (Source.remove esU sU pollEmpty [(0, 0)]).1 = () ∧
    (∀ e ∈ (Source.remove esU sU pollEmpty [(0, 0)]).2.2.1, e.1 ≠ sU.token) ∧
    (exceptOk (pollEmpty.deregister (esU.desc sU.source)) = false →
      (Source.remove esU sU pollEmpty [(0, 0)]).2.1 = pollEmpty) :=
  remove_never_fails esU sU pollEmpty [(0, 0)]

/-! ## Claim C4 -/

/-- Claim C4, counterexample: at a backend state where the deregistration
inside `Source::remove` fails, the code still returns the plain success
tuple — it does not agree with the spec-modelled removal that surfaces the
failure, so deregistration failures arising from `remove` are silently
dropped, not surfaced. -/
theorem remove_error_not_surfaced_cex :
    ¬ (Except.ok (Source.remove esU sU pollEmpty []) =
        removeSurfacing esU sU pollEmpty []) := by
  intro h
  rw [removeSurfacing] at h
  rw [show pollEmpty.deregister (esU.desc sU.source) =
      Except.error PollError.notRegistered from rfl] at h
  exact Except.noConfusion h

/-- Claim C4, amended: OS failures from `Source::reregister` are surfaced to
the caller (the operation succeeds exactly when the backend holds the
descriptor, and otherwise returns the backend's error), but `Source::remove`
discards the deregistration failure and always returns the source. -/
theorem reregister_surfaces_remove_discards {E : Type} (es : EventSource E)
    (s : Source E) (p : Poll) (l : List (Nat × Nat)) :
    (exceptOk (Source.reregister es s p) = true ↔
      p.hasDesc (es.desc s.source) = true) ∧
    (exceptOk (Source.reregister es s p) = false →
      Source.reregister es s p = Except.error PollError.notRegistered) ∧
    (Source.remove es s p l).1 = s.source := by
  refine ⟨?_, ?_, rfl⟩ <;>
    · rw [Source.reregister, Poll.reregister]
      by_cases hd : p.hasDesc (es.desc s.source) <;>
        simp [hd, exceptOk]

/-- Closed instance of `reregister_surfaces_remove_discards` at a backend
missing the descriptor: reregistration returns the error, removal still
returns the source. -/
theorem reregister_surfaces_remove_discards_witness :
    (exceptOk (Source.reregister esU sU pollEmpty) = true ↔
      pollEmpty.hasDesc (esU.desc sU.source) = true) ∧
    (exceptOk (Source.reregister esU sU pollEmpty) = false →
      Source.reregister esU sU pollEmpty = Except.error PollError.notRegistered) ∧
    (Source.remove esU sU pollEmpty []).1 = () :=
  reregister_surfaces_remove_discards esU sU pollEmpty []

/-! ## Claim C6 -/

/-- Claim C6: when the backend still holds the descriptor,
`Source::reregister` succeeds and re-registers the wrapped source under the
same token it was originally assigned, with the interest and mode the source
currently advertises; when the backend does not hold the descriptor, the
backend error is returned.  A registration's interest and mode are unchanged
by register/deregister/reregister operations on other descriptors — they
change only through an explicit reregistration of their own descriptor. -/
theorem reregister_same_token_current_interest {E : Type} (es : EventSource E)
    (s : Source E) (p : Poll) (hd : p.hasDesc (es.desc s.source) = true) :
    (∃ p', Source.reregister es s p = Except.ok p' ∧
      (∃ r ∈ p'.regs, r.desc = es.desc s.source) ∧
      (∀ r ∈ p'.regs, r.desc = es.desc s.source →
        r = ⟨es.desc s.source, s.token, es.interest s.source, es.pollopts s.source⟩) ∧
      (∀ r ∈ p'.regs, r.desc ≠ es.desc s.source → r ∈ p.regs)) ∧
    (∀ q : Poll, q.hasDesc (es.desc s.source) = false →
      Source.reregister es s q = Except.error PollError.notRegistered) ∧
    (∀ r : Registration, r ∈ p.regs →
      (∀ (d' tok' : Nat) (i' : Ready) (o' : PollOpt) (q' : Poll),
        r.desc ≠ d' → p.register d' tok' i' o' = Except.ok q' → r ∈ q'.regs) ∧
      (∀ (d' : Nat) (q' : Poll),
        r.desc ≠ d' → p.deregister d' = Except.ok q' → r ∈ q'.regs) ∧
      (∀ (d' tok' : Nat) (i' : Ready) (o' : PollOpt) (q' : Poll),
        r.desc ≠ d' → p.reregister d' tok' i' o' = Except.ok q' → r ∈ q'.regs)) := by
  refine ⟨?_, ?_, ?_⟩
  · refine ⟨⟨p.regs.map (fun r => if r.desc = es.desc s.source then
      ⟨es.desc s.source, s.token, es.interest s.source, es.pollopts s.source⟩
      else r)⟩, ?_, ?_, ?_, ?_⟩
    · rw [Source.reregister, Poll.reregister, if_pos hd]
    · rcases Poll.hasDesc_iff.1 hd with ⟨r₀, hr₀, hdesc⟩
      refine ⟨_, List.mem_map_of_mem _ hr₀, ?_⟩
      rw [if_pos hdesc]
    · intro r hr hrd
      rcases List.mem_map.1 hr with ⟨r₀, hr₀, himg⟩
      by_cases h₀ : r₀.desc = es.desc s.source
      · rw [if_pos h₀] at himg
        exact himg.symm
      · rw [if_neg h₀] at himg
        rw [← himg] at hrd
        exact absurd hrd h₀
    · intro r hr hrd
      rcases List.mem_map.1 hr with ⟨r₀, hr₀, himg⟩
      by_cases h₀ : r₀.desc = es.desc s.source
      · rw [if_pos h₀] at himg
        rw [← himg] at hrd
        exact absurd rfl hrd
      · rw [if_neg h₀] at himg
        rw [← himg]
        exact hr₀
  · intro q hq
    rw [Source.reregister, Poll.reregister, if_neg (by rw [hq]; exact Bool.noConfusion)]
  · intro r hr
    refine ⟨?_, ?_, ?_⟩
    · intro d' tok' i' o' q' _ hok
      rw [Poll.register_ok hok]
      exact List.mem_append.2 (Or.inl hr)
    · intro d' q' hne hok
      rw [Poll.deregister_ok hok, List.mem_filter]
      refine ⟨hr, ?_⟩
      simp [hne]
    · intro d' tok' i' o' q' hne hok
      rw [Poll.reregister_ok hok]
      have : (if r.desc = d' then (⟨d', tok', i', o'⟩ : Registration) else r) = r :=
        if_neg hne
      rw [← this]
      exact List.mem_map_of_mem _ hr

/-- Closed instance of `reregister_same_token_current_interest` on the
one-registration backend. -/
theorem reregister_same_token_current_interest_witness :
    pollOne.hasDesc (esU.desc sU.source) = true ∧
    (∃ p', Source.reregister esU sU pollOne = Except.ok p' ∧
      (∃ r ∈ p'.regs, r.desc = esU.desc sU.source) ∧
      (∀ r ∈ p'.regs, r.desc = esU.desc sU.source →
        r = ⟨esU.desc sU.source, sU.token, esU.interest sU.source, esU.pollopts sU.source⟩) ∧
      (∀ r ∈ p'.regs, r.desc ≠ esU.desc sU.source → r ∈ pollOne.regs)) :=
  ⟨by decide, (reregister_same_token_current_interest esU sU pollOne (by decide)).1⟩

/-! ## Claim C1 -/

/-- Claim C1: for an inserted source (descriptor registered, registry tokens
within the token bound), `Source::remove` immediately deregisters the
descriptor from the polling backend and drops the dispatcher entry from the
registry; if the removal happens before any dispatch cycle runs, no
subsequent cycle ever invokes the source's callback. -/
theorem remove_immediately_deregisters {E : Type} (es : EventSource E)
    (s : Source E) (p : Poll) (st : LoopState)
    (hdesc : p.hasDesc (es.desc s.source) = true)
    (hb : ∀ e ∈ st.registry, e.1 < st.nextToken)
    (htok : s.token < st.nextToken) :
    (Source.remove es s p st.registry).2.1.hasDesc (es.desc s.source) = false ∧
    (∀ e ∈ (Source.remove es s p st.registry).2.2.1, e.1 ≠ s.token) ∧
    (∀ (dEnv : Nat → DispatcherAction) (ienv : Nat → List Nat)
      (batches : List (List (Nat × Ready))),
      Ev.io s.token ∉
        (runCycles dEnv ienv
          { st with registry := (Source.remove es s p st.registry).2.2.1 }
          batches).2) := by
  have hder : p.deregister (es.desc s.source) =
      Except.ok ⟨p.regs.filter (fun r => !(r.desc == es.desc s.source))⟩ := by
    rw [Poll.deregister, if_pos hdesc]
  refine ⟨?_, ?_, ?_⟩
  · show (match p.deregister (es.desc s.source) with
      | Except.ok q => q
      | Except.error _ => p).hasDesc (es.desc s.source) = false
    rw [hder]
    exact hasDesc_filter_self p _
  · intro e he
    have he' : e ∈ (del_source st.registry s.token).1 := he
    exact (mem_del_source.1 he').2
  · intro dEnv ienv batches
    refine runCycles_no_io dEnv ienv batches _ ?_ htok ?_
    · intro e he
      have he' : e ∈ (del_source st.registry s.token).1 := he
      exact hb e (mem_del_source.1 he').1
    · intro e he
      have he' : e ∈ (del_source st.registry s.token).1 := he
      exact (mem_del_source.1 he').2

/-- Closed instance of `remove_immediately_deregisters`: insert-then-remove on
the one-source state leaves no backend registration, no registry entry, and a
following no-mutation cycle on any batch naming the token invokes nothing. -/
theorem remove_immediately_deregisters_witness :
    pollOne.hasDesc (esU.desc sU.source) = true ∧
    (∀ e ∈ stOne.registry, e.1 < stOne.nextToken) ∧ sU.token < stOne.nextToken ∧
    ((Source.remove esU sU pollOne stOne.registry).2.1.hasDesc (esU.desc sU.source) = false ∧
    (∀ e ∈ (Source.remove esU sU pollOne stOne.registry).2.2.1, e.1 ≠ sU.token) ∧
    (∀ (dEnv : Nat → DispatcherAction) (ienv : Nat → List Nat)
      (batches : List (List (Nat × Ready))),
      Ev.io sU.token ∉
        (runCycles dEnv ienv
          { stOne with registry := (Source.remove esU sU pollOne stOne.registry).2.2.1 }
          batches).2)) :=
  ⟨by decide, by decide, by decide,
    remove_immediately_deregisters esU sU pollOne stOne (by decide) (by decide)
      (by decide)⟩

/-! ## Claims C3 and C5: the dispatcher protocol -/

theorem dispatchTrace_map_fst {Event Data : Type} (cb : Event → Data → Data) :
    ∀ (es : List Event) (d : Data),
      (dispatchTrace cb es d).map Prod.fst = es := by
  intro es
  induction es with
  | nil => intro d; rfl
  | cons e rest ih => intro d; simp [dispatchTrace, ih]

theorem dispatchTrace_threaded {Event Data : Type} (cb : Event → Data → Data) :
    ∀ (es : List Event) (d : Data), Threaded cb d (dispatchTrace cb es d) := by
  intro es
  induction es with
  | nil => intro d; trivial
  | cons e rest ih => intro d; exact ⟨rfl, ih (cb e d)⟩

theorem dispatchEvents_eq_foldl_trace {Event Data : Type}
    (cb : Event → Data → Data) :
    ∀ (es : List Event) (d : Data),
      dispatchEvents cb es d =
        (dispatchTrace cb es d).foldl (fun acc p => cb p.1 acc) d := by
  intro es
  induction es with
  | nil => intro d; rfl
  | cons e rest ih => intro d; simp [dispatchTrace, dispatchEvents, List.foldl, ih]

/-- Claim C3, counterexample: the code's per-invocation callback argument
record — read off `F: FnMut(Self::Event, &mut Data)` — has no metadata
component: already at the simplest instantiation it cannot be put in
bijection with the spec's three-component argument record, so the dispatcher
cannot be invoking the callback with a metadata view. -/
theorem callback_args_no_metadata_cex :
    ¬ Nonempty (CallbackArgs Unit Unit ≃ SpecCallbackArgs Unit Bool Unit) := by
  rintro ⟨e⟩
  have hs : e.symm ((), true, ()) = e.symm ((), false, ()) :=
    Subsingleton.elim _ _
  have h := e.symm.injective hs
  simp at h

/-- Claim C3, amended: for every source conversion and every readiness
notification, the dispatcher invokes the stored user callback once per
converted event — in conversion order — with two things: that event value
and the shared application data, the data being threaded sequentially from
one invocation to the next and the final data being what the callback chain
produced. -/
theorem dispatcher_invokes_event_and_data {Event Data : Type}
    (conv : Ready → List Event) (cb : Event → Data → Data) (r : Ready)
    (d : Data) :
    (readyTrace conv cb r d).map Prod.fst = conv r ∧
    Threaded cb d (readyTrace conv cb r d) ∧
    dispatcherReady conv cb r d =
      (readyTrace conv cb r d).foldl (fun acc p => cb p.1 acc) d :=
  ⟨dispatchTrace_map_fst cb (conv r) d, dispatchTrace_threaded cb (conv r) d,
    dispatchEvents_eq_foldl_trace cb (conv r) d⟩

/-- Claim C5, counterexample: `EventDispatcher::ready` returns no value, so
its result cannot distinguish a callback-raised error from success — the
unit result type cannot be put in bijection with the spec's
error-or-success result even for a single error value; no error can be
propagated outward through `ready`. -/
theorem ready_result_no_error_cex :
    ¬ Nonempty (ReadyResult ≃ SpecReadyResult Unit) := by
  rintro ⟨e⟩
  have hs : e.symm (Except.ok ()) = e.symm (Except.error ()) :=
    Subsingleton.elim _ _
  have h := e.symm.injective hs
  exact Except.noConfusion h

/-- Claim C5, amended: the dispatcher offers the callback no error channel —
`ready` returns nothing — so a callback-raised error reaches the dispatch
caller only if the callback records it in the shared data; the dispatcher
then delivers the shared data, with every error every invocation recorded,
to the caller, and no event's invocation is skipped after an earlier error
(no short-circuit). -/
theorem ready_delivers_recorded_errors {Event Err : Type}
    (conv : Ready → List Event) (g : Event → Option Err) (r : Ready)
    (acc : List Err) :
    dispatcherReady conv (fun e l => l ++ (g e).toList) r acc =
      acc ++ (conv r).filterMap g := by
  rw [dispatcherReady]
  generalize conv r = es
  induction es generalizing acc with
  | nil => simp [dispatchEvents]
  | cons e rest ih =>
      rw [dispatchEvents, List.filterMap_cons]
      cases hg : g e with
      | none => simp only [hg, Option.toList, List.append_nil]; exact ih _
      | some b =>
          rw [ih (acc ++ (Option.some b).toList)]
          simp

/-! ## Claim C2 -/

theorem cancel_idleCells (st : LoopState) (h : Idle) :
    (Idle.cancel st h).idleCells = st.idleCells.set h.id none := rfl

/-- Claim C2: `Idle::cancel` called before the idle callback has executed
guarantees the callback never runs in any later dispatch cycle; `cancel`
called after the callback has executed is a no-op on the engine state; and in
every run of the loop the idle callback runs at most once. -/
theorem idle_cancel_spec (dEnv : Nat → DispatcherAction) (ienv : Nat → List Nat)
    (st : LoopState) (h : Idle) (hv : h.id < st.idleCells.length) :
    (∀ batches, Ev.idle h.id ∉ (runCycles dEnv ienv (Idle.cancel st h) batches).2) ∧
    (∀ batch, Ev.idle h.id ∈ (dispatchCycle dEnv ienv st batch).2 →
      Idle.cancel (dispatchCycle dEnv ienv st batch).1 h =
        (dispatchCycle dEnv ienv st batch).1) ∧
    (∀ batches, countEv (Ev.idle h.id) (runCycles dEnv ienv st batches).2 ≤ 1) := by
  refine ⟨?_, ?_, ?_⟩
  · intro batches
    have hlen : h.id < (Idle.cancel st h).idleCells.length := by
      rw [cancel_idleCells, List.length_set]
      exact hv
    have hnone : (Idle.cancel st h).idleCells.getD h.id none = none := by
      rw [cancel_idleCells]
      simp [List.getD_eq_getElem?_getD, List.getElem?_set_self hv]
    exact (runCycles_none_stable dEnv ienv batches _ hlen hnone).2.2
  · intro batch hm
    have hc := dispatchCycle_idle_mem_none dEnv ienv st batch hm
    have hset := set_none_of_getD_none _ h.id hc.1
    calc Idle.cancel (dispatchCycle dEnv ienv st batch).1 h
        = { (dispatchCycle dEnv ienv st batch).1 with
              idleCells :=
                (dispatchCycle dEnv ienv st batch).1.idleCells.set h.id none } := rfl
      _ = (dispatchCycle dEnv ienv st batch).1 := by rw [hset]
  · intro batches
    exact runCycles_count_le_one batches st

/-- Closed instance of `idle_cancel_spec` on the one-idle state. -/
theorem idle_cancel_spec_witness :
    (⟨0⟩ : Idle).id < stOne.idleCells.length ∧
    ((∀ batches,
        Ev.idle (Idle.mk 0).id ∉
          (runCycles dEnvNop ienvNop (Idle.cancel stOne ⟨0⟩) batches).2) ∧
    (∀ batch, Ev.idle (Idle.mk 0).id ∈ (dispatchCycle dEnvNop ienvNop stOne batch).2 →
      Idle.cancel (dispatchCycle dEnvNop ienvNop stOne batch).1 ⟨0⟩ =
        (dispatchCycle dEnvNop ienvNop stOne batch).1) ∧
    (∀ batches,
      countEv (Ev.idle (Idle.mk 0).id) (runCycles dEnvNop ienvNop stOne batches).2 ≤ 1)) :=
  ⟨by decide, idle_cancel_spec dEnvNop ienvNop stOne ⟨0⟩ (by decide)⟩

/-! ## Claim C10 -/

/-- Claim C10: dropping an `Idle` handle does not cancel the idle callback —
the engine state is untouched, and while the callback remains stored in its
cell and queued it still runs at the next drain (its invocation appears in
the next dispatch cycle); only a `cancel` before execution prevents it from
ever running. -/
theorem idle_drop_not_cancel (dEnv : Nat → DispatcherAction)
    (ienv : Nat → List Nat) (st : LoopState) (h : Idle) (c : Nat)
    (hc : st.idleCells.getD h.id none = some c) (hq : h.id ∈ st.idleQueue) :
    dropIdle st h = st ∧
    (∀ batch, Ev.idle h.id ∈ (dispatchCycle dEnv ienv (dropIdle st h) batch).2) ∧
    (∀ batches, Ev.idle h.id ∉ (runCycles dEnv ienv (Idle.cancel st h) batches).2) := by
  have hv : h.id < st.idleCells.length := lt_length_of_getD_some hc
  refine ⟨rfl, ?_, ?_⟩
  · intro batch
    show Ev.idle h.id ∈ (dispatchCycle dEnv ienv st batch).2
    rcases ioPhase_cells_queue dEnv batch st with ⟨ex, exq, hcells, hqueue⟩
    have hc₁ : (ioPhase dEnv st batch).1.idleCells.getD h.id none = some c := by
      rw [hcells, getD_append_lt _ _ _ hv]
      exact hc
    have hq₁ : h.id ∈ (ioPhase dEnv st batch).1.idleQueue := by
      rw [hqueue]
      exact List.mem_append.2 (Or.inl hq)
    rw [dispatchCycle]
    exact List.mem_append.2 (Or.inr (drainGo_run_of_mem _ _ _ hq₁ hc₁))
  · intro batches
    have hlen : h.id < (Idle.cancel st h).idleCells.length := by
      rw [cancel_idleCells, List.length_set]
      exact hv
    have hnone : (Idle.cancel st h).idleCells.getD h.id none = none := by
      rw [cancel_idleCells]
      simp [List.getD_eq_getElem?_getD, List.getElem?_set_self hv]
    exact (runCycles_none_stable dEnv ienv batches _ hlen hnone).2.2

/-- Closed instance of `idle_drop_not_cancel` on the one-idle state. -/
theorem idle_drop_not_cancel_witness :
    stOne.idleCells.getD (Idle.mk 0).id none = some 0 ∧
    (Idle.mk 0).id ∈ stOne.idleQueue ∧
    (dropIdle stOne ⟨0⟩ = stOne ∧
    (∀ batch, Ev.idle (Idle.mk 0).id ∈
      (dispatchCycle dEnvNop ienvNop (dropIdle stOne ⟨0⟩) batch).2) ∧
    (∀ batches, Ev.idle (Idle.mk 0).id ∉
      (runCycles dEnvNop ienvNop (Idle.cancel stOne ⟨0⟩) batches).2)) :=
  ⟨by decide, by decide,
    idle_drop_not_cancel dEnvNop ienvNop stOne ⟨0⟩ 0 (by decide) (by decide)⟩

/-! ## Claim C7 -/

/-- Claim C7: within one dispatch cycle every I/O dispatcher invocation
precedes every idle-callback invocation (the trace is its I/O part followed
by its idle part); the idle callbacks drained are a subsequence, in queue
(insertion) order, of the cycle's pending idle queue, each running at most
once; and every idle callback inserted during the drain is deferred — it
sits in the next cycle's queue as a cell created after the drain began and
its invocation never appears in the current cycle. -/
theorem cycle_io_before_idle (dEnv : Nat → DispatcherAction)
    (ienv : Nat → List Nat) (st : LoopState) (batch : List (Nat × Ready))
    (hq : ∀ i ∈ st.idleQueue, i < st.idleCells.length) :
    ((dispatchCycle dEnv ienv st batch).2 =
      (dispatchCycle dEnv ienv st batch).2.filter Ev.isIo ++
      (dispatchCycle dEnv ienv st batch).2.filter (fun e => !(Ev.isIo e))) ∧
    List.Sublist ((dispatchCycle dEnv ienv st batch).2.filterMap Ev.idleId)
      (ioPhase dEnv st batch).1.idleQueue ∧
    (∀ i, countEv (Ev.idle i) (dispatchCycle dEnv ienv st batch).2 ≤ 1) ∧
    (∀ i ∈ (dispatchCycle dEnv ienv st batch).1.idleQueue,
      (ioPhase dEnv st batch).1.idleCells.length ≤ i ∧
      Ev.idle i ∉ (dispatchCycle dEnv ienv st batch).2) := by
  have hval : ∀ i ∈ (ioPhase dEnv st batch).1.idleQueue,
      i < (ioPhase dEnv st batch).1.idleCells.length :=
    ioPhase_queue_valid batch st hq
  have hio : ∀ e ∈ (ioPhase dEnv st batch).2, Ev.isIo e = true :=
    fun e he => ioPhase_events_io batch st e he
  have hidle : ∀ e ∈ (drainGo ienv (ioPhase dEnv st batch).1.idleCells
      (ioPhase dEnv st batch).1.idleQueue []).2.2, Ev.isIo e = false :=
    fun e he => drainGo_events_idle _ _ _ e he
  have hA1 : (ioPhase dEnv st batch).2.filter Ev.isIo = (ioPhase dEnv st batch).2 :=
    List.filter_eq_self.2 hio
  have hA2 : (ioPhase dEnv st batch).2.filter (fun e => !(Ev.isIo e)) = [] :=
    List.filter_eq_nil_iff.2 (fun e he => by simp [hio e he])
  have hB1 : List.filter Ev.isIo
      (drainGo ienv (ioPhase dEnv st batch).1.idleCells
        (ioPhase dEnv st batch).1.idleQueue []).2.2 = [] :=
    List.filter_eq_nil_iff.2 (fun e he => by simp [hidle e he])
  have hB2 : List.filter (fun e => !(Ev.isIo e))
      (drainGo ienv (ioPhase dEnv st batch).1.idleCells
        (ioPhase dEnv st batch).1.idleQueue []).2.2 =
      (drainGo ienv (ioPhase dEnv st batch).1.idleCells
        (ioPhase dEnv st batch).1.idleQueue []).2.2 :=
    List.filter_eq_self.2 (fun e he => by simp [hidle e he])
  have hA0 : (ioPhase dEnv st batch).2.filterMap Ev.idleId = [] :=
    List.filterMap_eq_nil_iff.2 (fun e he => by
      cases e with
      | io t => rfl
      | idle i => exact Bool.noConfusion (hio _ he))
  refine ⟨?_, ?_, ?_, ?_⟩
  · show (ioPhase dEnv st batch).2 ++
        (drainGo ienv (ioPhase dEnv st batch).1.idleCells
          (ioPhase dEnv st batch).1.idleQueue []).2.2 =
      ((ioPhase dEnv st batch).2 ++
        (drainGo ienv (ioPhase dEnv st batch).1.idleCells
          (ioPhase dEnv st batch).1.idleQueue []).2.2).filter Ev.isIo ++
      ((ioPhase dEnv st batch).2 ++
        (drainGo ienv (ioPhase dEnv st batch).1.idleCells
          (ioPhase dEnv st batch).1.idleQueue []).2.2).filter (fun e => !(Ev.isIo e))
    rw [List.filter_append, List.filter_append, hA1, hA2, hB1, hB2]
    simp
  · show List.Sublist (((ioPhase dEnv st batch).2 ++
        (drainGo ienv (ioPhase dEnv st batch).1.idleCells
          (ioPhase dEnv st batch).1.idleQueue []).2.2).filterMap Ev.idleId)
      (ioPhase dEnv st batch).1.idleQueue
    rw [List.filterMap_append, hA0, List.nil_append]
    exact drainGo_ids_sublist _ _ _
  · intro i
    exact dispatchCycle_count_le_one st batch
  · intro i hi
    have hge : (ioPhase dEnv st batch).1.idleCells.length ≤ i := by
      have hm : i ∈ (drainGo ienv (ioPhase dEnv st batch).1.idleCells
          (ioPhase dEnv st batch).1.idleQueue []).2.1 := hi
      rcases drainGo_nq_mem _ _ _ _ hm with hn | hge
      · cases hn
      · exact hge
    refine ⟨hge, ?_⟩
    intro hm
    rw [dispatchCycle] at hm
    rcases List.mem_append.1 hm with hm' | hm'
    · have := hio _ hm'
      exact Bool.noConfusion this
    · have hids : i ∈ ((drainGo ienv (ioPhase dEnv st batch).1.idleCells
          (ioPhase dEnv st batch).1.idleQueue []).2.2.filterMap Ev.idleId) :=
        mem_filterMap_idleId.2 hm'
      have hmem : i ∈ (ioPhase dEnv st batch).1.idleQueue :=
        (drainGo_ids_sublist _ _ _).mem hids
      exact absurd (hval i hmem) (Nat.not_lt_of_le hge)

/-- Closed instance of `cycle_io_before_idle` on the one-idle state with a
one-entry batch. -/
theorem cycle_io_before_idle_witness :
    (∀ i ∈ stOne.idleQueue, i < stOne.idleCells.length) ∧
    (((dispatchCycle dEnvNop ienvNop stOne [(0, ⟨true, false⟩)]).2 =
      (dispatchCycle dEnvNop ienvNop stOne [(0, ⟨true, false⟩)]).2.filter Ev.isIo ++
      (dispatchCycle dEnvNop ienvNop stOne [(0, ⟨true, false⟩)]).2.filter
        (fun e => !(Ev.isIo e))) ∧
    List.Sublist
      ((dispatchCycle dEnvNop ienvNop stOne [(0, ⟨true, false⟩)]).2.filterMap Ev.idleId)
      (ioPhase dEnvNop stOne [(0, ⟨true, false⟩)]).1.idleQueue ∧
    (∀ i, countEv (Ev.idle i)
      (dispatchCycle dEnvNop ienvNop stOne [(0, ⟨true, false⟩)]).2 ≤ 1) ∧
    (∀ i ∈ (dispatchCycle dEnvNop ienvNop stOne [(0, ⟨true, false⟩)]).1.idleQueue,
      (ioPhase dEnvNop stOne [(0, ⟨true, false⟩)]).1.idleCells.length ≤ i ∧
      Ev.idle i ∉ (dispatchCycle dEnvNop ienvNop stOne [(0, ⟨true, false⟩)]).2)) :=
  ⟨by decide, cycle_io_before_idle dEnvNop ienvNop stOne [(0, ⟨true, false⟩)]
    (by decide)⟩

/-! ## Claim C8 -/

/-- Claim C8: the batch of (token, readiness) pairs is snapshotted before any
dispatcher runs — every invoked token was already in the batch, so an entry
inserted mid-cycle (its token minted at or above the cycle's starting token
bound) is never dispatched in the same cycle; a dispatcher's mutations never
prevent an already-batched live dispatcher whose token no dispatcher removes
from being invoked; and from any mid-cycle state whose registry no longer
holds a batched token, the rest of the phase skips that token via the live
lookup before invocation. -/
theorem batch_snapshot_reentrancy (dEnv : Nat → DispatcherAction)
    (st : LoopState) (batch : List (Nat × Ready))
    (hbatch : ∀ p ∈ batch, p.1 < st.nextToken) :
    (∀ t, Ev.io t ∈ (ioPhase dEnv st batch).2 → t ∈ batch.map Prod.fst) ∧
    (∀ t, st.nextToken ≤ t → Ev.io t ∉ (ioPhase dEnv st batch).2) ∧
    (∀ t d r, (∀ d', t ∉ (dEnv d').removes) → (t, r) ∈ batch →
      (t, d) ∈ st.registry → Ev.io t ∈ (ioPhase dEnv st batch).2) ∧
    (∀ t (st' : LoopState), (∀ e ∈ st'.registry, e.1 < st'.nextToken) →
      t < st'.nextToken → (∀ e ∈ st'.registry, e.1 ≠ t) →
      ∀ rest : List (Nat × Ready), Ev.io t ∉ (ioPhase dEnv st' rest).2) := by
  refine ⟨?_, ?_, ?_, ?_⟩
  · intro t hm
    exact ioPhase_io_mem_batch batch st hm
  · intro t hge hm
    rcases List.mem_map.1 (ioPhase_io_mem_batch batch st hm) with ⟨p, hp, hfst⟩
    have := hbatch p hp
    rw [hfst] at this
    exact absurd this (Nat.not_lt_of_le hge)
  · intro t d r hno hmb hmr
    exact ioPhase_live_runs hno batch st d r hmb hmr
  · intro t st' hb hlt hn rest
    exact (ioPhase_token_stable dEnv rest st' hb hlt hn).2.2.2

/-- Closed instance of `batch_snapshot_reentrancy` on the one-source state. -/
theorem batch_snapshot_reentrancy_witness :
    (∀ p ∈ [((0 : Nat), Ready.mk true false)], p.1 < stOne.nextToken) ∧
    ((∀ t, Ev.io t ∈ (ioPhase dEnvNop stOne [(0, ⟨true, false⟩)]).2 →
      t ∈ [((0 : Nat), Ready.mk true false)].map Prod.fst) ∧
    (∀ t, stOne.nextToken ≤ t →
      Ev.io t ∉ (ioPhase dEnvNop stOne [(0, ⟨true, false⟩)]).2) ∧
    (∀ t d r, (∀ d', t ∉ (dEnvNop d').removes) →
      (t, r) ∈ [((0 : Nat), Ready.mk true false)] → (t, d) ∈ stOne.registry →
      Ev.io t ∈ (ioPhase dEnvNop stOne [(0, ⟨true, false⟩)]).2) ∧
    (∀ t (st' : LoopState), (∀ e ∈ st'.registry, e.1 < st'.nextToken) →
      t < st'.nextToken → (∀ e ∈ st'.registry, e.1 ≠ t) →
      ∀ rest : List (Nat × Ready), Ev.io t ∉ (ioPhase dEnvNop st' rest).2)) :=
  ⟨by decide, batch_snapshot_reentrancy dEnvNop stOne [(0, ⟨true, false⟩)]
    (by decide)⟩

end Calloop
